import Mathlib

/-!
Verification of the core geospatial-temporal reduction pipeline of
`mapper.py`: the temporal slicer (`create_date_slices` / `filter_dates`),
the spatial deduplicator (`filter_nearby_photos` / `km_to_degrees`) and the
extent calculator (`get_curr_extent`).

Embedding conventions:
* coordinates and all arithmetic are over `ℚ` (the source uses IEEE floats;
  the properties checked here are structural, and exact arithmetic is used);
* timestamps are `ℤ` (seconds); Python `datetime` subtraction followed by
  `.days` is floor division by 86400;
* `math.cos` is an external real function and is passed in abstractly;
* functions that raise on empty input in the source return `Option` here;
* the `cKDTree.query_ball_point(p, r)` query returns exactly the indices of
  the points with Euclidean distance ≤ r from `p` (no point when `r < 0`),
  which is expressed on squared distances to stay inside `ℚ`.
-/

/-- A geotagged, timestamped photo record (dataclass `Photo` in the source).
`coords` is `(latitude, longitude)` in degrees; `date` is the capture
timestamp in seconds.  The source compares `Photo` values by `date` alone. -/
structure Photo where
  filename : String
  coords : ℚ × ℚ
  date : ℤ
deriving DecidableEq, Repr

instance : Inhabited Photo := ⟨⟨"", (0, 0), 0⟩⟩

/-- Seconds in one day: `timedelta(days=1)`. -/
def daySeconds : ℤ := 86400

/-- `filter_dates`: yield photos while `photo.date < threshold_date`,
stopping at the first photo that does not qualify (the source loop
`break`s there). -/
def filter_dates (photos : List Photo) (threshold_date : ℤ) : List Photo :=
  photos.takeWhile (fun p => p.date < threshold_date)

/-- The emission loop of `create_date_slices`: for each day boundary in
order, form the prefix `filter_dates photos day` and emit it exactly when
its length differs from `last_number_photos`, the length of the previously
emitted prefix (initially `0`). -/
def slicesLoop (photos : List Photo) : List ℤ → ℕ → List (List Photo)
  | [], _ => []
  | day :: days, lastCount =>
    let photos_before := filter_dates photos day
    if photos_before.length ≠ lastCount then
      photos_before :: slicesLoop photos days photos_before.length
    else
      slicesLoop photos days lastCount

/-- `create_date_slices`: the day boundaries are `start_date + (x+1)` days
for `x ∈ range((end_date - start_date).days)`; Python's `timedelta.days` is
floor division by 86400, and `range` of a negative count is empty (hence
`Int.toNat`).  The source indexes `photos[0]` and `photos[-1]`, raising on
an empty list (modelled as `none`). -/
def create_date_slices : List Photo → Option (List (List Photo))
  | [] => none
  | p :: ps =>
    let start_date := p.date
    let end_date := ((p :: ps).getLast (List.cons_ne_nil p ps)).date
    let days := (List.range ((end_date - start_date).fdiv daySeconds).toNat).map
      (fun x : ℕ => start_date + ((x : ℤ) + 1) * daySeconds)
    some (slicesLoop (p :: ps) days 0)

/-- Timestamp of a frame's last photo (`filtered[-1].date` in the source);
`0` for an empty frame. -/
def lastDate (l : List Photo) : ℤ :=
  ((l.getLast?).map Photo.date).getD 0

/-- `km_to_degrees`: one degree of latitude ≈ 111.12 km; the longitude
conversion divides further by the cosine of the latitude.  `math.cos` is
passed in abstractly as `cosF`. -/
def km_to_degrees (cosF : ℚ → ℚ) (latitude km : ℚ) : ℚ × ℚ :=
  (km / (11112 / 100), km / ((11112 / 100) * cosF latitude))

/-- The scalar query radius of `filter_nearby_photos`:
`max(threshold_deg_lat, threshold_deg_lon)`, computed once from the FIRST
photo's latitude. -/
def dedupThreshold (cosF : ℚ → ℚ) (km : ℚ) (first : Photo) : ℚ :=
  max (km_to_degrees cosF first.coords.1 km).1 (km_to_degrees cosF first.coords.1 km).2

/-- Squared Euclidean distance in degree space. -/
def distSq (a b : ℚ × ℚ) : ℚ :=
  (a.1 - b.1) ^ 2 + (a.2 - b.2) ^ 2

/-- Membership in the closed ball of radius `thr` around `a`, as used by
`tree.query_ball_point`: Euclidean distance ≤ `thr`, hence no point at all
when `thr < 0`.  Squared form, exact over `ℚ`. -/
def nearQ (thr : ℚ) (a b : ℚ × ℚ) : Prop :=
  0 ≤ thr ∧ distSq a b ≤ thr ^ 2

instance (thr : ℚ) (a b : ℚ × ℚ) : Decidable (nearQ thr a b) :=
  inferInstanceAs (Decidable (0 ≤ thr ∧ distSq a b ≤ thr ^ 2))

/-- The set of indices returned by `tree.query_ball_point(points[i], thr)`. -/
def ballIdx (points : List (ℚ × ℚ)) (thr : ℚ) (i : ℕ) : Finset ℕ :=
  (Finset.range points.length).filter
    (fun j => nearQ thr (points.getD i (0, 0)) (points.getD j (0, 0)))

/-- One iteration of the suppression loop of `filter_nearby_photos`: an
already-suppressed index is skipped (`continue`); otherwise every index in
the threshold ball around `i` is suppressed and `i` itself is then
discarded. -/
def dedupStep (points : List (ℚ × ℚ)) (thr : ℚ) (filtered : Finset ℕ) (i : ℕ) : Finset ℕ :=
  if i ∈ filtered then filtered
  else (filtered ∪ ballIdx points thr i).erase i

/-- The suppressed index set `filtered_indices` right before iteration `k`
of the loop `for i in range(len(photos))`. -/
def dedupStates (points : List (ℚ × ℚ)) (thr : ℚ) : ℕ → Finset ℕ
  | 0 => ∅
  | k + 1 => dedupStep points thr (dedupStates points thr k) k

/-- `filter_nearby_photos`: suppress every photo that lies within the scalar
threshold ball of an earlier surviving photo, keeping surviving photos in
input order.  `km` is the configured FILTER_DISTANCE (default 10).  The
source builds a `cKDTree` over the points and indexes `photos[0]`, both of
which raise on an empty input (modelled as `none`). -/
def filter_nearby_photos (cosF : ℚ → ℚ) (km : ℚ) : List Photo → Option (List Photo)
  | [] => none
  | p :: ps =>
    let photos := p :: ps
    let points := photos.map Photo.coords
    let thr := dedupThreshold cosF km p
    let filtered := dedupStates points thr points.length
    some (((List.range photos.length).filter (fun i => i ∉ filtered)).map
      (fun i => photos.getD i default))

/-- The min/max, centering, padding and degenerate-square fallback part of
`get_curr_extent`: returns `(centerlat, centerlong, veclat, veclong)` with
the half-extents as they stand right before ratio enforcement.  `min([])`
raises in the source, modelled as `none`. -/
def extentCore : List Photo → Option (ℚ × ℚ × ℚ × ℚ)
  | [] => none
  | p :: ps =>
    let minlat := ps.foldl (fun m x => min m x.coords.1) p.coords.1
    let maxlat := ps.foldl (fun m x => max m x.coords.1) p.coords.1
    let minlong := ps.foldl (fun m x => min m x.coords.2) p.coords.2
    let maxlong := ps.foldl (fun m x => max m x.coords.2) p.coords.2
    let centerlat := (minlat + maxlat) / 2
    let centerlong := (minlong + maxlong) / 2
    let veclat := |maxlat - minlat| / 2 * (11 / 10)
    let veclong := |maxlong - minlong| / 2 * (11 / 10)
    if veclat = 0 ∨ veclong = 0 then
      some (centerlat, centerlong, 1 / 2, 1 / 2)
    else
      some (centerlat, centerlong, veclat, veclong)

/-- The ratio-enforcement step of `get_curr_extent` on the pair
`(veclat, veclong)`: if `veclat < veclong / R` grow `veclat`, else if
`veclong < veclat * R` grow `veclong`.  `R` is the configured target aspect
ratio (default 16/9). -/
def ratioEnforce (R : ℚ) (v : ℚ × ℚ) : ℚ × ℚ :=
  if v.1 < v.2 / R then (v.2 / R, v.2)
  else if v.2 < v.1 * R then (v.1, v.1 * R)
  else v

/-- `get_curr_extent`: returns `(minlong, maxlong, minlat, maxlat)` of the
viewport.  The commented-out out-of-bounds clamp in the source is dead code
and is not modelled. -/
def get_curr_extent (R : ℚ) (photos : List Photo) : Option (ℚ × ℚ × ℚ × ℚ) :=
  (extentCore photos).map (fun c =>
    let v := ratioEnforce R (c.2.2.1, c.2.2.2)
    (c.2.1 - v.2, c.2.1 + v.2, c.1 - v.1, c.1 + v.1))

/-! ### Helper lemmas: extent calculator -/

/-- `extentCore` on a non-empty list succeeds and both half-extents it
returns are strictly positive (the fallback replaces a zero half-extent by
`1/2`, and a non-zero half-extent is a positive multiple of an absolute
value). -/
theorem extentCore_pos (p : Photo) (ps : List Photo) :
    ∃ c₁ c₂ v₁ v₂, extentCore (p :: ps) = some (c₁, c₂, v₁, v₂) ∧ 0 < v₁ ∧ 0 < v₂ := by
  dsimp only [extentCore]
  split_ifs with h
  · exact ⟨_, _, 1 / 2, 1 / 2, rfl, by norm_num, by norm_num⟩
  · push_neg at h
    refine ⟨_, _, _, _, rfl, ?_, ?_⟩
    · exact lt_of_le_of_ne (by positivity) (Ne.symm h.1)
    · exact lt_of_le_of_ne (by positivity) (Ne.symm h.2)

/-- Ratio enforcement never shrinks either half-extent. -/
theorem ratioEnforce_le (R : ℚ) (v : ℚ × ℚ) :
    v.1 ≤ (ratioEnforce R v).1 ∧ v.2 ≤ (ratioEnforce R v).2 := by
  unfold ratioEnforce
  split_ifs with h1 h2
  · exact ⟨le_of_lt h1, le_refl _⟩
  · exact ⟨le_refl _, le_of_lt h2⟩
  · exact ⟨le_refl _, le_refl _⟩

/-- Ratio enforcement keeps both half-extents strictly positive. -/
theorem ratioEnforce_pos (R : ℚ) (v : ℚ × ℚ) (hR : 0 < R)
    (h1 : 0 < v.1) (h2 : 0 < v.2) :
    0 < (ratioEnforce R v).1 ∧ 0 < (ratioEnforce R v).2 := by
  unfold ratioEnforce
  split_ifs
  · exact ⟨div_pos h2 hR, h2⟩
  · exact ⟨h1, mul_pos h1 hR⟩
  · exact ⟨h1, h2⟩

/-- After ratio enforcement the longitude half-extent is exactly `R` times
the latitude half-extent, on every input pair. -/
theorem ratioEnforce_ratio (R : ℚ) (v : ℚ × ℚ) (hR : 0 < R) :
    (ratioEnforce R v).2 = (ratioEnforce R v).1 * R := by
  unfold ratioEnforce
  split_ifs with h1 h2
  · exact (div_mul_cancel₀ v.2 (ne_of_gt hR)).symm
  · rfl
  · push_neg at h1 h2
    exact le_antisymm ((div_le_iff₀ hR).mp h1) h2

/-- On the fallback square `(1/2, 1/2)`, ratio enforcement with a target
ratio `R ≥ 1` leaves the latitude half-extent at `1/2` and grows the
longitude half-extent to `R/2`. -/
theorem ratioEnforce_half (R : ℚ) (hR : 1 ≤ R) :
    ratioEnforce R ((1 : ℚ) / 2, (1 : ℚ) / 2) = (1 / 2, R / 2) := by
  have hR0 : (0 : ℚ) < R := lt_of_lt_of_le one_pos hR
  dsimp only [ratioEnforce]
  split_ifs with h1 h2
  · exact absurd h1 (not_lt.2 (div_le_self (by norm_num) hR))
  · simp only [Prod.mk.injEq, true_and]
    ring
  · have hle : R ≤ 1 := by nlinarith [not_lt.1 h2]
    rw [le_antisymm hle hR]

/-- `extentCore` of a single photo: the degenerate fallback square. -/
theorem extentCore_singleton (p : Photo) :
    extentCore [p] = some (p.coords.1, p.coords.2, 1 / 2, 1 / 2) := by
  simp [extentCore, add_self_div_two]

/-! ### Claims about the extent calculator -/

/-- C1 (amended): for a single-element input the extent calculator first
forms the ±0.5-degree fallback square, but ratio enforcement then grows the
longitude half-extent to `R/2` (for any target ratio `R ≥ 1`), so the
returned box is ±0.5 degrees in latitude and ±`R/2` degrees in longitude. -/
theorem claim_C1_single_point (R : ℚ) (p : Photo) (hR : 1 ≤ R) :
    get_curr_extent R [p] = some
      (p.coords.2 - R / 2, p.coords.2 + R / 2, p.coords.1 - 1 / 2, p.coords.1 + 1 / 2) := by
  unfold get_curr_extent
  rw [extentCore_singleton, Option.map_some']
  dsimp only
  rw [ratioEnforce_half R hR]

/-- C1 witness: at `R = 2` the single-point box is `±1` degree of longitude
and `±0.5` degrees of latitude. -/
theorem claim_C1_single_point_witness :
    get_curr_extent 2 [⟨"w", (10, 20), 0⟩] =
      some (20 - 2 / 2, 20 + 2 / 2, 10 - 1 / 2, 10 + 1 / 2) :=
  claim_C1_single_point 2 ⟨"w", (10, 20), 0⟩ (by norm_num)

/-- C3 (amended): for every non-empty input and target ratio `R > 0`, the
returned box satisfies `maxlong - minlong = R * (maxlat - minlat)` exactly —
including the degenerate fallback case, whose 0.5-degree square is
subsequently ratio-enforced like any other box. -/
theorem claim_C3_extent_ratio (R : ℚ) (p : Photo) (ps : List Photo) (hR : 0 < R) :
    ∃ a b c d, get_curr_extent R (p :: ps) = some (a, b, c, d) ∧
      b - a = R * (d - c) := by
  obtain ⟨c₁, c₂, v₁, v₂, hE, hv1, hv2⟩ := extentCore_pos p ps
  have hr := ratioEnforce_ratio R (v₁, v₂) hR
  refine ⟨c₂ - (ratioEnforce R (v₁, v₂)).2, c₂ + (ratioEnforce R (v₁, v₂)).2,
    c₁ - (ratioEnforce R (v₁, v₂)).1, c₁ + (ratioEnforce R (v₁, v₂)).1, ?_, ?_⟩
  · unfold get_curr_extent
    rw [hE, Option.map_some']
  · rw [hr]; ring

/-- C3 witness: a concrete two-photo input satisfying the exact ratio
invariant at the default target ratio `16/9`. -/
theorem claim_C3_extent_ratio_witness :
    ∃ a b c d, get_curr_extent (16 / 9) [⟨"a", (0, 0), 0⟩, ⟨"b", (10, 10), 1⟩] =
      some (a, b, c, d) ∧ b - a = 16 / 9 * (d - c) :=
  claim_C3_extent_ratio (16 / 9) ⟨"a", (0, 0), 0⟩ [⟨"b", (10, 10), 1⟩] (by norm_num)

/-- C7 (amended): the two ratio-enforcement branch conditions are mutually
exclusive and firing a branch only grows the half-extents, but it is NOT
true that one of them always fires: when the padded (or fallback) box
already meets the target ratio exactly, neither branch fires and the pair
is returned unchanged. -/
theorem claim_C7_ratio_branches (R : ℚ) (v : ℚ × ℚ) (hR : 0 < R) :
    ¬ (v.1 < v.2 / R ∧ v.2 < v.1 * R) ∧
    (v.1 ≤ (ratioEnforce R v).1 ∧ v.2 ≤ (ratioEnforce R v).2) ∧
    (¬ v.1 < v.2 / R → ¬ v.2 < v.1 * R → ratioEnforce R v = v ∧ v.2 = v.1 * R) := by
  refine ⟨?_, ratioEnforce_le R v, ?_⟩
  · rintro ⟨h1, h2⟩
    have := (lt_div_iff₀ hR).mp h1
    linarith
  · intro h1 h2
    constructor
    · unfold ratioEnforce
      rw [if_neg h1, if_neg h2]
    · exact le_antisymm ((div_le_iff₀ hR).mp (not_lt.1 h1)) (not_lt.1 h2)

/-- C7 witness: at `R = 16/9` and half-extents `(1, 1)`, the branch
conditions are mutually exclusive and enforcement only grows the pair. -/
theorem claim_C7_ratio_branches_witness :
    ¬ ((1 : ℚ) < 1 / (16 / 9) ∧ (1 : ℚ) < 1 * (16 / 9)) ∧
    ((1 : ℚ) ≤ (ratioEnforce (16 / 9) (1, 1)).1 ∧
      (1 : ℚ) ≤ (ratioEnforce (16 / 9) (1, 1)).2) ∧
    (¬ (1 : ℚ) < 1 / (16 / 9) → ¬ (1 : ℚ) < 1 * (16 / 9) →
      ratioEnforce (16 / 9) (1, 1) = (1, 1) ∧ (1 : ℚ) = 1 * (16 / 9)) :=
  claim_C7_ratio_branches (16 / 9) (1, 1) (by norm_num)

/-- C8: invoked on an empty photo list, both the spatial deduplicator and
the extent calculator signal an error (`none`, modelling the exception the
source raises) instead of returning a default; on any non-empty input both
succeed. -/
theorem claim_C8_empty_input (cosF : ℚ → ℚ) (km R : ℚ) :
    filter_nearby_photos cosF km [] = none ∧ get_curr_extent R [] = none ∧
    ∀ p ps, (filter_nearby_photos cosF km (p :: ps)).isSome ∧
      (get_curr_extent R (p :: ps)).isSome := by
  refine ⟨rfl, rfl, fun p ps => ⟨rfl, ?_⟩⟩
  obtain ⟨c₁, c₂, v₁, v₂, hE, _, _⟩ := extentCore_pos p ps
  unfold get_curr_extent
  rw [hE, Option.map_some']
  rfl

/-- C10: for every non-empty input and target ratio `R > 0`, the returned
box has strictly positive width and height. -/
theorem claim_C10_positive_box (R : ℚ) (p : Photo) (ps : List Photo) (hR : 0 < R) :
    ∃ a b c d, get_curr_extent R (p :: ps) = some (a, b, c, d) ∧ a < b ∧ c < d := by
  obtain ⟨c₁, c₂, v₁, v₂, hE, hv1, hv2⟩ := extentCore_pos p ps
  obtain ⟨hp1, hp2⟩ := ratioEnforce_pos R (v₁, v₂) hR hv1 hv2
  refine ⟨c₂ - (ratioEnforce R (v₁, v₂)).2, c₂ + (ratioEnforce R (v₁, v₂)).2,
    c₁ - (ratioEnforce R (v₁, v₂)).1, c₁ + (ratioEnforce R (v₁, v₂)).1, ?_, ?_, ?_⟩
  · unfold get_curr_extent
    rw [hE, Option.map_some']
  · linarith
  · linarith

/-- C10 witness: a concrete single-photo input yields a box with positive
width and height. -/
theorem claim_C10_positive_box_witness :
    ∃ a b c d, get_curr_extent (16 / 9) [⟨"a", (3, 4), 7⟩] = some (a, b, c, d) ∧
      a < b ∧ c < d :=
  claim_C10_positive_box (16 / 9) ⟨"a", (3, 4), 7⟩ [] (by norm_num)

/-! ### Helper lemmas: spatial deduplicator -/

/-- Squared Euclidean distance is symmetric. -/
theorem distSq_comm (a b : ℚ × ℚ) : distSq a b = distSq b a := by
  unfold distSq; ring

/-- Threshold-ball membership is symmetric. -/
theorem nearQ_symm {thr : ℚ} {a b : ℚ × ℚ} (h : nearQ thr a b) : nearQ thr b a :=
  ⟨h.1, by rw [distSq_comm]; exact h.2⟩

/-- The query radius is nonnegative whenever the configured distance is:
it is at least the latitude conversion `km / 111.12`. -/
theorem dedupThreshold_nonneg (cosF : ℚ → ℚ) {km : ℚ} (hkm : 0 ≤ km) (p : Photo) :
    0 ≤ dedupThreshold cosF km p := by
  unfold dedupThreshold km_to_degrees
  exact le_trans (div_nonneg hkm (by norm_num)) (le_max_left _ _)

/-- Characterisation of the ball query result. -/
theorem mem_ballIdx {points : List (ℚ × ℚ)} {thr : ℚ} {i j : ℕ} :
    j ∈ ballIdx points thr i ↔
      j < points.length ∧ nearQ thr (points.getD i (0, 0)) (points.getD j (0, 0)) := by
  unfold ballIdx
  rw [Finset.mem_filter, Finset.mem_range]

theorem dedupStates_succ (points : List (ℚ × ℚ)) (thr : ℚ) (k : ℕ) :
    dedupStates points thr (k + 1) = dedupStep points thr (dedupStates points thr k) k := rfl

/-- The suppressed set only grows from one iteration to the next: the
`discard(i)` can only remove an index that was not yet suppressed when its
own iteration ran. -/
theorem dedupStates_subset_succ (points : List (ℚ × ℚ)) (thr : ℚ) (k : ℕ) :
    dedupStates points thr k ⊆ dedupStates points thr (k + 1) := by
  intro x hx
  show x ∈ dedupStep points thr (dedupStates points thr k) k
  unfold dedupStep
  split_ifs with h
  · exact hx
  · exact Finset.mem_erase.mpr ⟨fun hxk => h (hxk ▸ hx), Finset.mem_union_left _ hx⟩

theorem dedupStates_mono (points : List (ℚ × ℚ)) (thr : ℚ) {k m : ℕ} (h : k ≤ m) :
    dedupStates points thr k ⊆ dedupStates points thr m := by
  induction m, h using Nat.le_induction with
  | base => exact Finset.Subset.refl _
  | succ m _ ih => exact ih.trans (dedupStates_subset_succ points thr m)

/-- An index that is still unsuppressed when its own iteration runs is never
suppressed afterwards (within the real iteration range): any later surviving
index that could suppress it would itself have been suppressed at iteration
`i`. -/
theorem dedupStates_not_mem (points : List (ℚ × ℚ)) (thr : ℚ) {i : ℕ}
    (hi : i ∉ dedupStates points thr i) :
    ∀ m, m ≤ points.length → i ∉ dedupStates points thr m := by
  intro m
  induction m with
  | zero => exact fun _ h => absurd h (Finset.not_mem_empty i)
  | succ m ih =>
    intro hm hmem
    have hm' : m ≤ points.length := Nat.le_of_succ_le hm
    have him : i ∉ dedupStates points thr m := ih hm'
    rw [dedupStates_succ] at hmem
    unfold dedupStep at hmem
    split_ifs at hmem with hskip
    · exact him hmem
    · obtain ⟨hne, hmem'⟩ := Finset.mem_erase.mp hmem
      rcases Finset.mem_union.mp hmem' with h | h
      · exact him h
      · rcases Nat.lt_trichotomy m i with hlt | heq | hgt
        · have hstep : i ∈ dedupStates points thr (m + 1) := by
            rw [dedupStates_succ]
            unfold dedupStep
            rw [if_neg hskip]
            exact Finset.mem_erase.mpr ⟨hne, Finset.mem_union_right _ h⟩
          exact hi (dedupStates_mono points thr (Nat.succ_le_of_lt hlt) hstep)
        · exact hne heq.symm
        · have hmn : m < points.length := Nat.lt_of_succ_le hm
          have hball : m ∈ ballIdx points thr i :=
            mem_ballIdx.mpr ⟨hmn, nearQ_symm (mem_ballIdx.mp h).2⟩
          have hstep : m ∈ dedupStates points thr (i + 1) := by
            rw [dedupStates_succ]
            unfold dedupStep
            rw [if_neg hi]
            exact Finset.mem_erase.mpr ⟨Nat.ne_of_gt hgt, Finset.mem_union_right _ hball⟩
          exact hskip (dedupStates_mono points thr (Nat.succ_le_of_lt hgt) hstep)

/-- Two distinct surviving indices, earlier one first, are never within the
threshold ball of one another: otherwise the earlier survivor's iteration
would have suppressed the later one. -/
theorem dedup_survivors_far_lt (points : List (ℚ × ℚ)) (thr : ℚ) {i j : ℕ}
    (hi : i < points.length) (hj : j < points.length) (hij : i < j)
    (hsi : i ∉ dedupStates points thr points.length)
    (hsj : j ∉ dedupStates points thr points.length) :
    ¬ nearQ thr (points.getD i (0, 0)) (points.getD j (0, 0)) := by
  intro hnear
  have hii : i ∉ dedupStates points thr i :=
    fun h => hsi (dedupStates_mono points thr (Nat.le_of_lt hi) h)
  have hball : j ∈ ballIdx points thr i := mem_ballIdx.mpr ⟨hj, hnear⟩
  have hj1 : j ∈ dedupStates points thr (i + 1) := by
    rw [dedupStates_succ]
    unfold dedupStep
    rw [if_neg hii]
    exact Finset.mem_erase.mpr ⟨Nat.ne_of_gt hij, Finset.mem_union_right _ hball⟩
  exact hsj (dedupStates_mono points thr (Nat.succ_le_of_lt hi) hj1)

/-- Any two distinct surviving indices are farther apart than the
threshold. -/
theorem dedup_survivors_far (points : List (ℚ × ℚ)) (thr : ℚ) {i j : ℕ}
    (hi : i < points.length) (hj : j < points.length) (hne : i ≠ j)
    (hsi : i ∉ dedupStates points thr points.length)
    (hsj : j ∉ dedupStates points thr points.length) :
    ¬ nearQ thr (points.getD i (0, 0)) (points.getD j (0, 0)) := by
  rcases Nat.lt_or_ge i j with hlt | hge
  · exact dedup_survivors_far_lt points thr hi hj hlt hsi hsj
  · have hlt : j < i := Nat.lt_of_le_of_ne hge (Ne.symm hne)
    exact fun hnear =>
      dedup_survivors_far_lt points thr hj hi hlt hsj hsi (nearQ_symm hnear)

/-- Unfolding of `filter_nearby_photos` on a non-empty list. -/
theorem filter_nearby_eq (cosF : ℚ → ℚ) (km : ℚ) (p : Photo) (ps : List Photo) :
    filter_nearby_photos cosF km (p :: ps) =
      some (((List.range (p :: ps).length).filter
        (fun i => i ∉ dedupStates ((p :: ps).map Photo.coords)
          (dedupThreshold cosF km p) ((p :: ps).map Photo.coords).length)).map
        (fun i => (p :: ps).getD i default)) := rfl

/-- The output list of `filter_nearby_photos`, explicitly. -/
theorem filter_nearby_out {cosF : ℚ → ℚ} {km : ℚ} {p : Photo} {ps out : List Photo}
    (h : filter_nearby_photos cosF km (p :: ps) = some out) :
    out = ((List.range (p :: ps).length).filter
      (fun i => i ∉ dedupStates ((p :: ps).map Photo.coords)
        (dedupThreshold cosF km p) ((p :: ps).map Photo.coords).length)).map
      (fun i => (p :: ps).getD i default) := by
  rw [filter_nearby_eq] at h
  exact (Option.some.inj h).symm

/-- Reading a coordinate through the mapped points list. -/
theorem getD_map_coords (l : List Photo) {i : ℕ} (h : i < l.length) :
    (l.map Photo.coords).getD i (0, 0) = (l.getD i default).coords := by
  rw [List.getD_eq_getElem _ _ (by rwa [List.length_map]),
    List.getD_eq_getElem _ _ h, List.getElem_map]

/-- Index 0 is never suppressed, so the input's first photo heads the
output. -/
theorem filter_nearby_head {cosF : ℚ → ℚ} {km : ℚ} {p : Photo} {ps out : List Photo}
    (h : filter_nearby_photos cosF km (p :: ps) = some out) :
    out.head? = some p := by
  rw [filter_nearby_out h, List.head?_map]
  have h0 : (0 : ℕ) ∉ dedupStates ((p :: ps).map Photo.coords)
      (dedupThreshold cosF km p) ((p :: ps).map Photo.coords).length :=
    dedupStates_not_mem _ _ (Finset.not_mem_empty 0) _ le_rfl
  rw [show (p :: ps).length = ps.length + 1 from rfl, List.range_succ_eq_map,
    List.filter_cons, if_pos (decide_eq_true h0), List.head?_cons,
    Option.map_some']
  rfl

/-- Output photos of one dedup pass are pairwise out of threshold range
(with the threshold computed from the first input photo's latitude). -/
theorem filter_nearby_pairwise {cosF : ℚ → ℚ} {km : ℚ} {p : Photo} {ps out : List Photo}
    (h : filter_nearby_photos cosF km (p :: ps) = some out) :
    List.Pairwise
      (fun a b => ¬ nearQ (dedupThreshold cosF km p) a.coords b.coords) out := by
  rw [filter_nearby_out h, List.pairwise_map]
  have hpw : List.Pairwise (· < ·) (((List.range (p :: ps).length)).filter
      (fun i => decide (i ∉ dedupStates ((p :: ps).map Photo.coords)
        (dedupThreshold cosF km p) ((p :: ps).map Photo.coords).length))) :=
    (List.pairwise_lt_range _).filter _
  refine hpw.imp_of_mem ?_
  intro a b ha hb hab
  obtain ⟨ha1, ha2⟩ := List.mem_filter.mp ha
  obtain ⟨hb1, hb2⟩ := List.mem_filter.mp hb
  have haN : a < (p :: ps).length := List.mem_range.mp ha1
  have hbN : b < (p :: ps).length := List.mem_range.mp hb1
  have hlen : ((p :: ps).map Photo.coords).length = (p :: ps).length :=
    List.length_map _ _
  have hfar := dedup_survivors_far ((p :: ps).map Photo.coords)
    (dedupThreshold cosF km p) (by rwa [hlen]) (by rwa [hlen])
    (Nat.ne_of_lt hab) (of_decide_eq_true ha2) (of_decide_eq_true hb2)
  intro hnear
  apply hfar
  rwa [getD_map_coords _ haN, getD_map_coords _ hbN]

/-! ### Claims about the spatial deduplicator -/

/-- C4: any two distinct photos surviving the same dedup pass lie strictly
farther apart (squared degree-space Euclidean distance) than the square of
the scalar threshold `max(deg_lat, deg_lon)` computed from FILTER_DISTANCE
(`km ≥ 0`) at the first photo's latitude. -/
theorem claim_C4_survivors_apart (cosF : ℚ → ℚ) (km : ℚ) (p : Photo)
    (ps out : List Photo) (hkm : 0 ≤ km)
    (h : filter_nearby_photos cosF km (p :: ps) = some out) :
    List.Pairwise
      (fun a b => (dedupThreshold cosF km p) ^ 2 < distSq a.coords b.coords) out := by
  have hthr := dedupThreshold_nonneg cosF hkm p
  refine (filter_nearby_pairwise h).imp ?_
  intro a b hnab
  by_contra hle
  exact hnab ⟨hthr, not_lt.1 hle⟩

/-- C9: the input's first photo always survives and is the output's first
element, so the output is never empty and a second pass recomputes the
threshold from the same reference latitude. -/
theorem claim_C9_first_survives (cosF : ℚ → ℚ) (km : ℚ) (p : Photo)
    (ps out : List Photo)
    (h : filter_nearby_photos cosF km (p :: ps) = some out) :
    out.head? = some p ∧ out ≠ [] := by
  refine ⟨filter_nearby_head h, ?_⟩
  intro hnil
  rw [hnil] at h
  have := filter_nearby_head h
  simp at this

/-- C5: the spatial deduplicator is idempotent — applied to its own output
with the same configured distance, it returns that output unchanged. -/
theorem claim_C5_idempotent (cosF : ℚ → ℚ) (km : ℚ) (l out : List Photo)
    (h : filter_nearby_photos cosF km l = some out) :
    filter_nearby_photos cosF km out = some out := by
  match l with
  | [] => exact Option.noConfusion h
  | p :: ps =>
    have hpw := filter_nearby_pairwise h
    have hhead := filter_nearby_head h
    match out, hhead with
    | [], hhead => exact Option.noConfusion hhead
    | q :: qs, hhead =>
      have hq : q = p := by
        simpa using hhead
      subst hq
      -- indexed pairwise separation for the output's own point list
      have hsep : ∀ i j, i < ((q :: qs).map Photo.coords).length →
          j < ((q :: qs).map Photo.coords).length → i ≠ j →
          ¬ nearQ (dedupThreshold cosF km q)
            (((q :: qs).map Photo.coords).getD i (0, 0))
            (((q :: qs).map Photo.coords).getD j (0, 0)) := by
        intro i j hi hj hne
        have hlen : ((q :: qs).map Photo.coords).length = (q :: qs).length :=
          List.length_map _ _
        have hi' : i < (q :: qs).length := hlen ▸ hi
        have hj' : j < (q :: qs).length := hlen ▸ hj
        have hgetE := List.pairwise_iff_getElem.mp hpw
        rcases Nat.lt_or_ge i j with hlt | hge
        · have := hgetE i j hi' hj' hlt
          rw [getD_map_coords _ hi', getD_map_coords _ hj',
            List.getD_eq_getElem _ _ hi', List.getD_eq_getElem _ _ hj']
          exact this
        · have hlt : j < i := Nat.lt_of_le_of_ne hge (Ne.symm hne)
          have := hgetE j i hj' hi' hlt
          rw [getD_map_coords _ hi', getD_map_coords _ hj',
            List.getD_eq_getElem _ _ hi', List.getD_eq_getElem _ _ hj']
          exact fun hn => this (nearQ_symm hn)
      -- every iteration of the second pass leaves the suppressed set empty
      have hstep : ∀ k, k < ((q :: qs).map Photo.coords).length →
          dedupStep ((q :: qs).map Photo.coords) (dedupThreshold cosF km q) ∅ k = ∅ := by
        intro k hk
        unfold dedupStep
        rw [if_neg (Finset.not_mem_empty k), Finset.empty_union]
        apply Finset.eq_empty_iff_forall_not_mem.mpr
        intro x hx
        obtain ⟨hxk, hxball⟩ := Finset.mem_erase.mp hx
        obtain ⟨hxlen, hxnear⟩ := mem_ballIdx.mp hxball
        exact hsep k x hk hxlen (fun hkx => hxk hkx.symm) hxnear
      have hstates : ∀ m, m ≤ ((q :: qs).map Photo.coords).length →
          dedupStates ((q :: qs).map Photo.coords) (dedupThreshold cosF km q) m = ∅ := by
        intro m
        induction m with
        | zero => exact fun _ => rfl
        | succ m ih =>
          intro hm
          rw [dedupStates_succ, ih (Nat.le_of_succ_le hm),
            hstep m (Nat.lt_of_succ_le hm)]
      rw [filter_nearby_eq]
      rw [hstates _ le_rfl]
      simp only [Finset.not_mem_empty, not_false_eq_true, decide_True,
        List.filter_true]
      congr 1
      apply List.ext_getElem
      · simp
      · intro i h1 h2
        simp only [List.getElem_map, List.getElem_range]
        rw [List.getD_eq_getElem _ _ h2]

/-! ### Helper lemmas: temporal slicer -/

theorem filter_dates_cons (x : Photo) (xs : List Photo) (d : ℤ) :
    filter_dates (x :: xs) d =
      if x.date < d then x :: filter_dates xs d else [] := by
  unfold filter_dates
  rw [List.takeWhile_cons]
  by_cases h : x.date < d
  · rw [if_pos (decide_eq_true h), if_pos h]
  · rw [if_neg (by simpa using h), if_neg h]

/-- A longer day boundary admits at least as long a prefix (on any list,
sorted or not, since the prefix predicate is pointwise monotone in the
boundary). -/
theorem filter_dates_length_mono (photos : List Photo) {d₁ d₂ : ℤ} (h : d₁ ≤ d₂) :
    (filter_dates photos d₁).length ≤ (filter_dates photos d₂).length := by
  induction photos with
  | nil => exact le_refl _
  | cons p ps ih =>
    rw [filter_dates_cons, filter_dates_cons]
    by_cases h1 : p.date < d₁
    · rw [if_pos h1, if_pos (lt_of_lt_of_le h1 h)]
      exact Nat.succ_le_succ ih
    · rw [if_neg h1]
      exact Nat.zero_le _

/-- If some member of the list fails the boundary, the emitted prefix is a
proper prefix. -/
theorem filter_dates_length_lt (photos : List Photo) (d : ℤ) {x : Photo}
    (hx : x ∈ photos) (hxd : ¬ x.date < d) :
    (filter_dates photos d).length < photos.length := by
  induction photos with
  | nil => cases hx
  | cons p ps ih =>
    rw [filter_dates_cons]
    by_cases h : p.date < d
    · rw [if_pos h]
      have hx' : x ∈ ps := by
        rcases List.mem_cons.mp hx with rfl | hx'
        · exact absurd h hxd
        · exact hx'
      exact Nat.succ_lt_succ (ih hx')
    · rw [if_neg h]
      exact Nat.succ_pos _

theorem lastDate_singleton (x : Photo) : lastDate [x] = x.date := rfl

theorem lastDate_cons (x : Photo) {l : List Photo} (h : l ≠ []) :
    lastDate (x :: l) = lastDate l := by
  match l, h with
  | y :: ys, _ =>
    unfold lastDate
    rw [List.getLast?_cons_cons]

/-- In a sorted list the head's timestamp bounds the last timestamp. -/
theorem head_le_lastDate (y : Photo) (l : List Photo)
    (hs : List.Pairwise (fun a b : Photo => a.date ≤ b.date) (y :: l)) :
    y.date ≤ lastDate (y :: l) := by
  induction l generalizing y with
  | nil => exact le_of_eq rfl
  | cons z zs ih =>
    rw [lastDate_cons y (List.cons_ne_nil z zs)]
    have h1 : y.date ≤ z.date :=
      List.rel_of_pairwise_cons hs (List.mem_cons_self z zs)
    exact le_trans h1 (ih z hs.of_cons)

/-- On a sorted list, a strictly longer emitted prefix ends at a strictly
later timestamp: the first photo beyond the shorter prefix has a timestamp
at least its boundary, while everything in the shorter prefix lies strictly
below that boundary. -/
theorem filter_dates_last_lt {photos : List Photo}
    (hs : List.Pairwise (fun a b : Photo => a.date ≤ b.date) photos) {d₁ d₂ : ℤ}
    (h0 : 0 < (filter_dates photos d₁).length)
    (hlt : (filter_dates photos d₁).length < (filter_dates photos d₂).length) :
    lastDate (filter_dates photos d₁) < lastDate (filter_dates photos d₂) := by
  induction photos with
  | nil => simp [filter_dates] at h0
  | cons x xs ih =>
    rw [filter_dates_cons] at h0 hlt ⊢
    rw [filter_dates_cons (d := d₂)] at hlt ⊢
    by_cases h1 : x.date < d₁
    case neg =>
      rw [if_neg h1] at h0
      simp at h0
    case pos =>
      have h2 : x.date < d₂ := by
        by_contra h2
        rw [if_pos h1, if_neg h2] at hlt
        simp at hlt
      rw [if_pos h1, if_pos h2] at hlt ⊢
      rw [if_pos h1] at h0
      rcases hxs : filter_dates xs d₁ with _ | ⟨w, ws⟩
      · rw [hxs] at hlt
        have ht2 : filter_dates xs d₂ ≠ [] := by
          intro hnil
          rw [hnil] at hlt
          simp at hlt
        rw [lastDate_cons x ht2, lastDate_singleton]
        rcases xs with _ | ⟨y, ys⟩
        · exact absurd rfl ht2
        · rw [filter_dates_cons] at ht2 ⊢
          by_cases hy2 : y.date < d₂
          case neg =>
            rw [if_neg hy2] at ht2
            exact absurd rfl ht2
          case pos =>
            rw [if_pos hy2]
            have hy1 : ¬ y.date < d₁ := by
              intro hy1
              rw [filter_dates_cons, if_pos hy1] at hxs
              exact List.cons_ne_nil _ _ hxs
            have hpw2 : List.Pairwise (fun a b : Photo => a.date ≤ b.date)
                (y :: filter_dates ys d₂) :=
              hs.of_cons.sublist (List.Sublist.cons₂ y (List.takeWhile_sublist _))
            exact lt_of_lt_of_le (lt_of_lt_of_le h1 (not_lt.1 hy1))
              (head_le_lastDate y _ hpw2)
      · rw [hxs] at hlt
        have ht2ne : filter_dates xs d₂ ≠ [] := by
          intro hnil
          rw [hnil] at hlt
          simp only [List.length_cons, List.length_nil] at hlt
          omega
        rw [lastDate_cons x (List.cons_ne_nil w ws), lastDate_cons x ht2ne, ← hxs]
        refine ih hs.of_cons ?_ ?_
        · rw [hxs]
          exact Nat.succ_pos _
        · rw [hxs]
          simp only [List.length_cons] at hlt ⊢
          omega

theorem slicesLoop_eq_nil (photos : List Photo) (lastCount : ℕ) :
    slicesLoop photos [] lastCount = [] := rfl

theorem slicesLoop_eq_cons (photos : List Photo) (day : ℤ) (days : List ℤ)
    (lastCount : ℕ) :
    slicesLoop photos (day :: days) lastCount =
      if (filter_dates photos day).length ≠ lastCount then
        filter_dates photos day ::
          slicesLoop photos days (filter_dates photos day).length
      else slicesLoop photos days lastCount := rfl

/-- Every emitted frame is the boundary prefix at one of the day
boundaries. -/
theorem slicesLoop_mem {photos : List Photo} :
    ∀ {days : List ℤ} {lastCount : ℕ} {f : List Photo},
      f ∈ slicesLoop photos days lastCount → ∃ d ∈ days, f = filter_dates photos d := by
  intro days
  induction days with
  | nil =>
    intro lastCount f h
    rw [slicesLoop_eq_nil] at h
    cases h
  | cons day ds ih =>
    intro lastCount f h
    rw [slicesLoop_eq_cons] at h
    split_ifs at h with hc
    · rcases List.mem_cons.mp h with rfl | h'
      · exact ⟨day, List.mem_cons_self day ds, rfl⟩
      · obtain ⟨d', hd', he⟩ := ih h'
        exact ⟨d', List.mem_cons_of_mem day hd', he⟩
    · obtain ⟨d', hd', he⟩ := ih h
      exact ⟨d', List.mem_cons_of_mem day hd', he⟩

/-- The emission loop invariant: over ascending day boundaries, with every
boundary's prefix at least as long as the previously emitted count, the
emitted frames have strictly increasing lengths and every emitted frame is
strictly longer than the previously emitted count. -/
theorem slicesLoop_lengths (photos : List Photo) :
    ∀ (days : List ℤ) (lastCount : ℕ),
      List.Pairwise (· ≤ ·) days →
      (∀ d ∈ days, lastCount ≤ (filter_dates photos d).length) →
      List.Chain' (fun f g : List Photo => f.length < g.length)
        (slicesLoop photos days lastCount) ∧
      ∀ f ∈ slicesLoop photos days lastCount, lastCount < f.length := by
  intro days
  induction days with
  | nil =>
    intro lastCount _ _
    rw [slicesLoop_eq_nil]
    exact ⟨List.chain'_nil, fun f h => absurd h (List.not_mem_nil f)⟩
  | cons day ds ih =>
    intro lastCount hpw hle
    rw [slicesLoop_eq_cons]
    have hpw' : List.Pairwise (· ≤ ·) ds := hpw.of_cons
    split_ifs with hc
    · have hlc : lastCount < (filter_dates photos day).length :=
        lt_of_le_of_ne (hle day (List.mem_cons_self day ds)) (Ne.symm hc)
      have hle' : ∀ d ∈ ds,
          (filter_dates photos day).length ≤ (filter_dates photos d).length :=
        fun d hd =>
          filter_dates_length_mono photos (List.rel_of_pairwise_cons hpw hd)
      obtain ⟨hchain, hall⟩ := ih (filter_dates photos day).length hpw' hle'
      constructor
      · rw [List.chain'_cons']
        exact ⟨fun g hg => hall g (List.mem_of_mem_head? hg), hchain⟩
      · intro f hf
        rcases List.mem_cons.mp hf with rfl | hf'
        · exact hlc
        · exact lt_trans hlc (hall f hf')
    · push_neg at hc
      have hle' : ∀ d ∈ ds, lastCount ≤ (filter_dates photos d).length := by
        intro d hd
        rw [← hc]
        exact filter_dates_length_mono photos (List.rel_of_pairwise_cons hpw hd)
      exact ih lastCount hpw' hle'

/-- The generated day boundaries ascend. -/
theorem createDays_sorted (start : ℤ) (n : ℕ) :
    List.Pairwise (· ≤ ·)
      ((List.range n).map (fun x : ℕ => start + ((x : ℤ) + 1) * daySeconds)) := by
  refine (List.pairwise_lt_range n).map _ ?_
  intro a b hab
  have hc : ((a : ℤ) + 1) ≤ ((b : ℤ) + 1) := by
    omega
  have hd : (0:ℤ) ≤ daySeconds := by norm_num [daySeconds]
  have := mul_le_mul_of_nonneg_right hc hd
  linarith

/-- Every generated day boundary is at most the last photo's timestamp
(floor division guarantees `days · 86400 ≤ end - start`). -/
theorem createDays_le_end {start stop : ℤ} {d : ℤ}
    (hd : d ∈ (List.range ((stop - start).fdiv daySeconds).toNat).map
      (fun x : ℕ => start + ((x : ℤ) + 1) * daySeconds)) :
    d ≤ stop := by
  obtain ⟨x, hx, rfl⟩ := List.mem_map.mp hd
  have hxn : x < ((stop - start).fdiv daySeconds).toNat := List.mem_range.mp hx
  have hfd : (0:ℤ) ≤ (stop - start).fdiv daySeconds := by
    by_contra hneg
    push_neg at hneg
    rw [Int.toNat_of_nonpos (le_of_lt hneg)] at hxn
    exact Nat.not_lt_zero x hxn
  have hcast : ((x : ℤ) + 1) ≤ (stop - start).fdiv daySeconds := by
    have h1 : ((x + 1 : ℕ) : ℤ) ≤ (((stop - start).fdiv daySeconds).toNat : ℤ) := by
      exact_mod_cast Nat.succ_le_of_lt hxn
    rw [Int.toNat_of_nonneg hfd] at h1
    push_cast at h1
    exact h1
  have hds : (0:ℤ) < daySeconds := by norm_num [daySeconds]
  have h3 : ((x:ℤ) + 1) * daySeconds ≤ (stop - start).fdiv daySeconds * daySeconds :=
    mul_le_mul_of_nonneg_right hcast (le_of_lt hds)
  have h4 : (stop - start).fdiv daySeconds * daySeconds ≤ stop - start := by
    have heq := Int.fdiv_add_fmod (stop - start) daySeconds
    have hnn := Int.fmod_nonneg' (stop - start) hds
    rw [mul_comm] at heq
    linarith
  linarith

/-- Unfolding of `create_date_slices` on a non-empty list. -/
theorem create_date_slices_eq (p : Photo) (ps : List Photo) :
    create_date_slices (p :: ps) = some (slicesLoop (p :: ps)
      ((List.range ((((p :: ps).getLast (List.cons_ne_nil p ps)).date -
          p.date).fdiv daySeconds).toNat).map
        (fun x : ℕ => p.date + ((x : ℤ) + 1) * daySeconds)) 0) := rfl

/-! ### Claims about the temporal slicer -/

/-- C2 (amended): for a sorted input with at least one emission, the last
emitted prefix's cardinality is strictly LESS than the full sequence's: all
boundaries lie at or before the last photo's timestamp and prefixes are
strict (`date < boundary`), so the final photo is never emitted. -/
theorem claim_C2_slice_incomplete (photos : List Photo) (frames : List (List Photo))
    (hs : List.Pairwise (fun a b : Photo => a.date ≤ b.date) photos)
    (h : create_date_slices photos = some frames) (hne : frames ≠ []) :
    (frames.getLast hne).length < photos.length := by
  match photos, h with
  | p :: ps, h =>
    rw [create_date_slices_eq] at h
    obtain rfl := Option.some.inj h
    have hmem := List.getLast_mem hne
    obtain ⟨d, hd, hf⟩ := slicesLoop_mem hmem
    rw [hf]
    have hdle : d ≤ ((p :: ps).getLast (List.cons_ne_nil p ps)).date :=
      createDays_le_end hd
    exact filter_dates_length_lt (p :: ps) d
      (List.getLast_mem (List.cons_ne_nil p ps)) (not_lt.mpr hdle)

/-- C6: for a sorted non-empty input, the emitted prefixes have strictly
increasing cardinalities (hence an emission happens only when the count
changed) and strictly ascending last-photo timestamps. -/
theorem claim_C6_monotone (photos : List Photo) (frames : List (List Photo))
    (hs : List.Pairwise (fun a b : Photo => a.date ≤ b.date) photos)
    (h : create_date_slices photos = some frames) :
    List.Pairwise (fun f g : List Photo =>
      f.length < g.length ∧ lastDate f < lastDate g) frames := by
  match photos, h with
  | p :: ps, h =>
    rw [create_date_slices_eq] at h
    obtain rfl := Option.some.inj h
    obtain ⟨hchain, hall⟩ := slicesLoop_lengths (p :: ps) _ 0
      (createDays_sorted p.date _) (fun _ _ => Nat.zero_le _)
    haveI : IsTrans (List Photo) (fun f g : List Photo => f.length < g.length) :=
      ⟨fun _ _ _ h1 h2 => lt_trans h1 h2⟩
    have hpl := List.chain'_iff_pairwise.mp hchain
    refine hpl.imp_of_mem ?_
    intro f g hf hg hfg
    refine ⟨hfg, ?_⟩
    obtain ⟨d₁, hd₁, rfl⟩ := slicesLoop_mem hf
    obtain ⟨d₂, hd₂, rfl⟩ := slicesLoop_mem hg
    exact filter_dates_last_lt hs (hall _ hf) hfg

section
attribute [local semireducible] Rat.sub Rat.add Rat.mul Rat.inv

/-- C1 counterexample: for the single-photo input at latitude 10, longitude
20 and the default target ratio `16/9`, `get_curr_extent` does NOT return
the ±0.5-degree box in both axes (the longitude half-extent is grown to
`8/9` by ratio enforcement). -/
theorem claim_C1_counterexample :
    ¬ (get_curr_extent (16 / 9) [⟨"a", (10, 20), 0⟩] =
      some (20 - 1 / 2, 20 + 1 / 2, 10 - 1 / 2, 10 + 1 / 2)) := by decide

/-- C3 counterexample: in the degenerate single-point case the returned box
is NOT the fixed 0.5-degree square claimed by the exception clause; ratio
enforcement still applies to the fallback square. -/
theorem claim_C3_counterexample :
    ¬ (get_curr_extent (16 / 9) [⟨"c", (30, 40), 0⟩] =
      some (40 - 1 / 2, 40 + 1 / 2, 30 - 1 / 2, 30 + 1 / 2)) := by decide

/-- C7 counterexample: on the two-photo input `(0,0), (9,16)` with the
default ratio `16/9`, the padded half-extents are `(99/20, 44/5)`, which
already meet the target ratio exactly: NEITHER enforcement branch fires
(refuting "exactly one branch fires"), and the pair is returned
unchanged. -/
theorem claim_C7_counterexample :
    extentCore [⟨"a", (0, 0), 0⟩, ⟨"b", (9, 16), 1⟩] =
      some (9 / 2, 8, 99 / 20, 44 / 5) ∧
    ¬ ((99 / 20 : ℚ) < (44 / 5) / (16 / 9)) ∧
    ¬ ((44 / 5 : ℚ) < (99 / 20) * (16 / 9)) ∧
    ratioEnforce (16 / 9) (99 / 20, 44 / 5) = (99 / 20, 44 / 5) := by decide

/-- C4 witness: two photos 10 degrees apart both survive and are pairwise
farther apart than the threshold computed from FILTER_DISTANCE = 10 km. -/
theorem claim_C4_survivors_apart_witness :
    List.Pairwise (fun a b => (dedupThreshold (fun _ => 1) 10 ⟨"c", (0, 0), 0⟩) ^ 2 <
        distSq a.coords b.coords)
      [(⟨"c", (0, 0), 0⟩ : Photo), ⟨"d", (10, 10), 1⟩] :=
  claim_C4_survivors_apart (fun _ => 1) 10 ⟨"c", (0, 0), 0⟩ [⟨"d", (10, 10), 1⟩]
    [⟨"c", (0, 0), 0⟩, ⟨"d", (10, 10), 1⟩] (by norm_num) (by decide)

/-- C9 witness: deduplicating two nearby photos keeps exactly the first one,
which heads the (non-empty) output. -/
theorem claim_C9_first_survives_witness :
    ([⟨"a", (10, 20), 0⟩] : List Photo).head? = some ⟨"a", (10, 20), 0⟩ ∧
    ([⟨"a", (10, 20), 0⟩] : List Photo) ≠ [] :=
  claim_C9_first_survives (fun _ => 1) 10 ⟨"a", (10, 20), 0⟩
    [⟨"b", (10 + 1 / 100, 20 + 1 / 100), 5⟩] [⟨"a", (10, 20), 0⟩] (by decide)

/-- C5 witness: re-filtering the one-survivor output of a concrete dedup
pass returns it unchanged. -/
theorem claim_C5_idempotent_witness :
    filter_nearby_photos (fun _ => 1) 10 [(⟨"a", (10, 20), 0⟩ : Photo)] =
      some [⟨"a", (10, 20), 0⟩] :=
  claim_C5_idempotent (fun _ => 1) 10
    [⟨"a", (10, 20), 0⟩, ⟨"b", (10 + 1 / 100, 20 + 1 / 100), 5⟩]
    [⟨"a", (10, 20), 0⟩] (by decide)

/-- C2 counterexample: two photos one day apart, sorted; the only emitted
frame is the first-photo prefix, so the last emitted prefix has cardinality
1 while the full sequence has cardinality 2 — the final photo is never
emitted. -/
theorem claim_C2_counterexample :
    create_date_slices [⟨"a", (0, 0), 0⟩, ⟨"b", (1, 1), 86400⟩] =
      some [[⟨"a", (0, 0), 0⟩]] ∧
    ([[(⟨"a", (0, 0), 0⟩ : Photo)]].getLast (List.cons_ne_nil _ _)).length ≠
      [(⟨"a", (0, 0), 0⟩ : Photo), ⟨"b", (1, 1), 86400⟩].length := by
  exact ⟨by decide, by decide⟩

/-- C2 witness: the last emitted frame of the two-photo, one-day-apart
input is strictly shorter than the input. -/
theorem claim_C2_slice_incomplete_witness :
    ([[(⟨"a", (0, 0), 0⟩ : Photo)]].getLast (List.cons_ne_nil _ _)).length <
      [(⟨"a", (0, 0), 0⟩ : Photo), ⟨"b", (1, 1), 86400⟩].length :=
  claim_C2_slice_incomplete _ _ (by decide) (by decide) (List.cons_ne_nil _ _)

/-- C6 witness: a three-photo input spanning three days emits two frames
with strictly increasing cardinalities and last-photo timestamps. -/
theorem claim_C6_monotone_witness :
    List.Pairwise (fun f g : List Photo =>
      f.length < g.length ∧ lastDate f < lastDate g)
      [[⟨"a", (0, 0), 0⟩], [⟨"a", (0, 0), 0⟩, ⟨"b", (1, 1), 86400⟩]] :=
  claim_C6_monotone
    [⟨"a", (0, 0), 0⟩, ⟨"b", (1, 1), 86400⟩, ⟨"c", (2, 2), 2 * 86400 + 1⟩] _
    (by decide) (by decide)

end
